import Mathlib

/-!
Hexadecimal codec and join helpers of polarphp `devtools/utils/StringExtras.h`.

A shallow embedding of the inline functions of `StringExtras.h`.

Conventions of the embedding.

* A C++ `char` is represented by its byte value, a natural number in `0..255`;
  a `std::string` / `std::string_view` is a `List Nat` of such byte values.
  Every comparison the source makes on a `char` is against an ASCII literal, so
  the signedness of `char` does not matter: a byte above 127 fails every range
  test whether it is read as negative or as a value above 127.
* `unsigned` is 32 bits wide (`-1U = 2^32 - 1`), `uint64_t` is 64 bits wide,
  `uint8_t` and `unsigned char` are 8 bits wide; conversions are written as
  explicit `% 2^w`.
* `assert` in `hex_from_nibbles` is surfaced as the error `InvalidHexDigit`.
* Three identifiers of the source differ from the local they denote only in the
  capital first letter (`Hex` for `hex` in `from_hex`, `Buffer` for `buffer` in
  `utohexstr`, `Len` for `len` in `join_impl`); the embedding reads each as the
  local variable of the same spelling.
* The test of `to_lower` names `x`, which is neither its parameter `c` nor any
  other declaration of the header; `x` is a parameter of the embedding. That
  test bounds `c` from below only, so there a byte above 127 is compared as an
  unsigned `char`.
* `get_token` and `split_string` are declared in the header and defined
  elsewhere; they are modelled from their documented behaviour.
-/

namespace polar.utils

/-- The value `-1U`: the all-ones 32-bit `unsigned`. -/
def UINT_MAX : Nat := 4294967295

/-- Modulus of 32-bit `unsigned` arithmetic. -/
def UINT_MOD : Nat := 4294967296

/-- Source `hexdigit(unsigned value, bool lowerCase)`:
`hexChar = lowerCase ? 'a' : 'A'; return value < 10 ? '0' + value : hexChar + value - 10;`
The arithmetic is `unsigned` (mod `2^32`), the result is narrowed to `char`. -/
def hexdigit (value : Nat) (lowerCase : Bool := false) : Nat :=
  let hexChar : Nat := if lowerCase then 97 else 65
  if value < 10 then ((48 + value) % UINT_MOD) % 256
  else (((hexChar + value) % UINT_MOD + UINT_MOD - 10) % UINT_MOD) % 256

/-- Source `hex_digit_value(char c)`: the value of a hex digit, `-1U` for any other character. -/
def hex_digit_value (c : Nat) : Nat :=
  if 48 ≤ c ∧ c ≤ 57 then c - 48
  else if 97 ≤ c ∧ c ≤ 102 then c - 97 + 10
  else if 65 ≤ c ∧ c ≤ 70 then c - 65 + 10
  else UINT_MAX

/-- Source `is_hex_digit(char c)`: `hex_digit_value(c) != -1U`. -/
def is_hex_digit (c : Nat) : Bool :=
  hex_digit_value c != UINT_MAX

/-- State of `utohexstr`: `bufPtr` is the index of the write position inside
`char buffer[17]` (so `std::end(buffer)` is index 17) and `text` is the content
of `buffer[bufPtr .. 17)`. -/
structure HexBuffer where
  bufPtr : Nat
  text : List Nat
deriving DecidableEq

/-- The loop `while (c) { mod = (unsigned char)c & 15; *--bufPtr = hexdigit(mod, lowerCase); c >>= 4; }`
of `utohexstr`. The recursion is on the write position, which every iteration
decrements; a write with the position already at the start of the buffer is out
of bounds and gives `none`. -/
def utohexstr_loop (lowerCase : Bool) : Nat → Nat → List Nat → Option HexBuffer
  | bufPtr, c, text =>
    if c = 0 then some { bufPtr := bufPtr, text := text }
    else
      match bufPtr with
      | 0 => none
      | p + 1 =>
        let mod := (c % 256) &&& 15
        utohexstr_loop lowerCase p (c >>> 4) (hexdigit mod lowerCase :: text)

/-- The buffer of `utohexstr(uint64_t c, bool lowerCase)` when the digit loop has
ended: `bufPtr = std::end(buffer); if (c == 0) *--bufPtr = '0';` and then the loop. -/
def utohexstr_buffer (c : Nat) (lowerCase : Bool := false) : Option HexBuffer :=
  let c := c % 2 ^ 64
  let start : HexBuffer := if c = 0 then { bufPtr := 16, text := [48] } else { bufPtr := 17, text := [] }
  utohexstr_loop lowerCase start.bufPtr c start.text

/-- Source `utohexstr(uint64_t c, bool lowerCase)`: `std::string(bufPtr, std::end(buffer))`. -/
def utohexstr (c : Nat) (lowerCase : Bool := false) : Option (List Nat) :=
  (utohexstr_buffer c lowerCase).map HexBuffer.text

/-- The lookup table `lut = "0123456789ABCDEF"` of `to_hex`. -/
def lut : List Nat := [48, 49, 50, 51, 52, 53, 54, 55, 56, 57, 65, 66, 67, 68, 69, 70]

/-- Source `to_hex(std::string_view input)`: for every byte `c = (unsigned char)input[i]`
push `lut[c >> 4]` and then `lut[c & 15]`. -/
def to_hex (input : List Nat) : List Nat :=
  input.foldl
    (fun output ch =>
      let c := ch % 256
      (output ++ [lut.getD (c >>> 4) 0]) ++ [lut.getD (c &&& 15) 0])
    []

/-- Failures of the decoder: the assertion of `hex_from_nibbles`, and a read
past the end of the view. -/
inductive HexError where
  | InvalidHexDigit
  | OutOfRange
deriving DecidableEq

deriving instance DecidableEq for Except

/-- Source `hex_from_nibbles(char msb, char lsb)`:
`u1 = hex_digit_value(msb); u2 = hex_digit_value(lsb); assert(u1 != -1U && u2 != -1U);`
`return static_cast<uint8_t>((u1 << 4) | u2);` -/
def hex_from_nibbles (msb lsb : Nat) : Except HexError Nat :=
  let u1 := hex_digit_value msb
  let u2 := hex_digit_value lsb
  if u1 != UINT_MAX && u2 != UINT_MAX then
    .ok ((((u1 <<< 4) % UINT_MOD) ||| u2) % 256)
  else
    .error .InvalidHexDigit

/-- The loop `while (!input.empty()) { hex = hex_from_nibbles(input[0], input[1]); output.push_back(hex); input = input.substr(2); }`
of `from_hex`. -/
def from_hex_loop : List Nat → List Nat → Except HexError (List Nat)
  | [], output => .ok output
  | [_], _ => .error .OutOfRange
  | c0 :: c1 :: rest, output =>
    match hex_from_nibbles c0 c1 with
    | .ok hex => from_hex_loop rest (output ++ [hex])
    | .error e => .error e

/-- Source `from_hex(std::string_view input)`. -/
def from_hex (input : List Nat) : Except HexError (List Nat) :=
  match input with
  | [] => .ok []
  | front :: tail =>
    if input.length % 2 = 1 then
      match hex_from_nibbles 48 front with
      | .ok hex => from_hex_loop tail [hex]
      | .error e => .error e
    else
      from_hex_loop input []

/-- The loop `while (++begin != end) { str += separator; str += (*begin); }` shared
by both overloads of `join_impl`, over the elements that follow the first. -/
def join_loop (separator : List Nat) : List (List Nat) → List Nat → List Nat
  | [], str => str
  | x :: rest, str => join_loop separator rest ((str ++ separator) ++ x)

/-- Source `internal::join_impl(begin, end, separator, std::input_iterator_tag)`. -/
def join_impl_input (xs : List (List Nat)) (separator : List Nat) : List Nat :=
  match xs with
  | [] => []
  | first :: rest => join_loop separator rest ([] ++ first)

/-- The local `len` of the `forward_iterator_tag` overload of `join_impl` when it
is passed to `reserve`:
`len = (std::distance(begin, end) - 1) * separator.size();`
`for (iter = begin; iter != end; ++iter) len += (*begin).size();` -/
def join_impl_forward_len (xs : List (List Nat)) (separator : List Nat) : Nat :=
  match xs with
  | [] => 0
  | first :: _ =>
    xs.foldl (fun len _ => len + first.length) ((xs.length - 1) * separator.length)

/-- Source `std::string::reserve(n)`: changes the capacity of the string, never its content. -/
def reserve (str : List Nat) (_n : Nat) : List Nat := str

/-- Source `internal::join_impl(begin, end, separator, std::forward_iterator_tag)`. -/
def join_impl_forward (xs : List (List Nat)) (separator : List Nat) : List Nat :=
  match xs with
  | [] => []
  | first :: rest =>
    let len := join_impl_forward_len xs separator
    let str := reserve [] len
    join_loop separator rest (str ++ first)

/-- The iterator categories `join` dispatches on. -/
inductive IteratorTag where
  | input_iterator_tag
  | forward_iterator_tag
deriving DecidableEq

/-- Source `join(begin, end, separator)`: dispatch on the iterator category. -/
def join (tag : IteratorTag) (xs : List (List Nat)) (separator : List Nat) : List Nat :=
  match tag with
  | .input_iterator_tag => join_impl_input xs separator
  | .forward_iterator_tag => join_impl_forward xs separator

/-- Byte values of a string literal. -/
def bytes (s : String) : List Nat := s.toList.map Char.toNat

/-- The characters `0-9`, `a-f`, `A-F`. -/
def IsHexChar (c : Nat) : Prop :=
  (48 ≤ c ∧ c ≤ 57) ∨ (97 ≤ c ∧ c ≤ 102) ∨ (65 ≤ c ∧ c ≤ 70)

instance (c : Nat) : Decidable (IsHexChar c) := by
  unfold IsHexChar; infer_instance

/-- Source `to_lower(char c)`, as written:
`if (c >= 'A' && x <= 'Z') { return c - 'A' + 'a'; } return c;`
The `x` of the test is not the parameter `c` and is declared nowhere in the
header, so it is an argument of the embedding. -/
def to_lower (x : Nat) (c : Nat) : Nat :=
  if 65 ≤ c ∧ x ≤ 90 then (c - 65 + 97) % 256 else c

/-- Source `to_upper(char c)`: `if (c >= 'a' && c <= 'z') { return c - 'a' + 'A'; } return c;` -/
def to_upper (c : Nat) : Nat :=
  if 97 ≤ c ∧ c ≤ 122 then (c - 97 + 65) % 256 else c

/-- Source `get_ordinal_suffix(unsigned value)`: the outer `switch (value % 100)` and the
inner `switch (value % 10)`. -/
def get_ordinal_suffix (value : Nat) : List Nat :=
  match value % 100 with
  | 11 => bytes "th"
  | 12 => bytes "th"
  | 13 => bytes "th"
  | _ =>
    match value % 10 with
    | 1 => bytes "st"
    | 2 => bytes "nd"
    | 3 => bytes "rd"
    | _ => bytes "th"

/-- An argument of `join_items`: a `char`, a `const char *` (`none` is the null
pointer, `some s` the characters before the terminator), or a string object. -/
inductive JoinItem where
  | chr (c : Nat)
  | c_str (s : Option (List Nat))
  | str (s : List Nat)
deriving DecidableEq

/-- Source `internal::join_one_item_size`: `1` for a `char`, `str ? ::strlen(str) : 0`
for a `const char *`, `str.size()` otherwise. -/
def join_one_item_size : JoinItem → Nat
  | .chr _ => 1
  | .c_str none => 0
  | .c_str (some s) => s.length
  | .str s => s.length

/-- Source `internal::join_items_size`, the three overloads. -/
def join_items_size : List JoinItem → Nat
  | [] => 0
  | [arg1] => join_one_item_size arg1
  | arg1 :: arg2 :: args => join_one_item_size arg1 + join_items_size (arg2 :: args)

/-- The statement `result += item`. Appending a null `const char *` is undefined
and gives `none`. -/
def appendItem (result : List Nat) : JoinItem → Option (List Nat)
  | .chr c => some (result ++ [c])
  | .c_str none => none
  | .c_str (some s) => some (result ++ s)
  | .str s => some (result ++ s)

/-- Source `internal::join_items_impl`, the three overloads: no item; one item
(`result += item`); several (`result += arg1; result += separator;` and the rest). -/
def join_items_impl (result : List Nat) (separator : JoinItem) :
    List JoinItem → Option (List Nat)
  | [] => some result
  | [item] => appendItem result item
  | arg1 :: arg2 :: args =>
    match appendItem result arg1 with
    | none => none
    | some r1 =>
      match appendItem r1 separator with
      | none => none
      | some r2 => join_items_impl r2 separator (arg2 :: args)

/-- The argument `NI + (sizeof...(args) - 1) * NS + 1` that `join_items` passes to `reserve`. -/
def join_items_reserved (separator : JoinItem) (args : List JoinItem) : Nat :=
  let NS := join_one_item_size separator
  let NI := join_items_size args
  NI + (args.length - 1) * NS + 1

/-- Source `join_items(Sep separator, Args &&... args)`. -/
def join_items (separator : JoinItem) (args : List JoinItem) : Option (List Nat) :=
  let result : List Nat := []
  if args.length = 0 then some result
  else
    let result := reserve result (join_items_reserved separator args)
    join_items_impl result separator args

/-- Modelled from the spec: the body of `get_token`, which the header only declares.
Skip all leading characters of `source` that belong to `delimiters`; the token is the
maximal run of subsequent characters not in `delimiters`; the remainder is everything
after that run. -/
def get_token (source delimiters : List Nat) : List Nat × List Nat :=
  let skipped := source.dropWhile (fun c => delimiters.contains c)
  (skipped.takeWhile (fun c => !delimiters.contains c),
   skipped.dropWhile (fun c => !delimiters.contains c))

/-- Modelled from the spec: the loop of `split_string`, which the header only declares.
`get_token` is applied to the remainder again and again and each token is appended to the
output in order; the loop ends when `get_token` finds no further token, so no empty
fragment is ever appended. `none` is the loop running out of steps. -/
def split_string_loop (delimiters : List Nat) :
    Nat → List Nat × List Nat → List (List Nat) → Option (List (List Nat))
  | 0, _, _ => none
  | steps + 1, (token, remainder), outFragments =>
    if token = [] then some outFragments
    else split_string_loop delimiters steps (get_token remainder delimiters)
      (outFragments ++ [token])

/-- Modelled from the spec: the body of `split_string`, which the header only declares.
Every step of the loop but the last consumes at least one character of `source`, so
`source.size() + 1` steps are allowed. -/
def split_string (source : List Nat) (outFragments : List (List Nat))
    (delimiters : List Nat) : Option (List (List Nat)) :=
  split_string_loop delimiters (source.length + 1) (get_token source delimiters) outFragments

/-- The text an argument of `join_items` stands for; a null pointer stands for no text. -/
def itemText : JoinItem → List Nat
  | .chr c => [c]
  | .c_str none => []
  | .c_str (some s) => s
  | .str s => s

/-- An argument of `join_items` that is a text or a character, not a null pointer. -/
def IsTextItem (item : JoinItem) : Prop := item ≠ .c_str none

instance (item : JoinItem) : Decidable (IsTextItem item) := by
  unfold IsTextItem; infer_instance

/-- The maximal non-empty runs of `source` free of characters of `delimiters`: the pieces
between delimiter characters, the empty pieces left out. -/
def delimiterFreeRuns (source delimiters : List Nat) : List (List Nat) :=
  (source.splitOnP (fun c => delimiters.contains c)).filter (fun run => !run.isEmpty)

/-- Pairwise reading of an even-length hex text: the byte of every two characters. -/
def decodePairs : List Nat → List Nat
  | c0 :: c1 :: rest => (hex_digit_value c0 * 16 + hex_digit_value c1) :: decodePairs rest
  | _ => []

/-- Reading of a hex text of any length: an odd-length text is read as if a `'0'` preceded it. -/
def decodeText (s : List Nat) : List Nat :=
  if s.length % 2 = 1 then decodePairs (48 :: s) else decodePairs s

/-- The two characters `to_hex` emits for one input character. -/
def hexPair (ch : Nat) : List Nat :=
  [lut.getD ((ch % 256) >>> 4) 0, lut.getD ((ch % 256) &&& 15) 0]

/-- Reading of a hex text, most significant digit first: `acc := acc * 16 + digit`. -/
def readHex (s : List Nat) : Nat :=
  s.foldl (fun acc ch => acc * 16 + hex_digit_value ch) 0

/-! ## Characters and nibbles -/

theorem hex_digit_value_lt_of_isHexChar {c : Nat} (h : IsHexChar c) :
    hex_digit_value c < 16 := by
  unfold IsHexChar at h
  unfold hex_digit_value
  split_ifs <;> omega

theorem hex_digit_value_of_not_isHexChar {c : Nat} (h : ¬ IsHexChar c) :
    hex_digit_value c = UINT_MAX := by
  unfold IsHexChar at h
  unfold hex_digit_value
  split_ifs <;> first | rfl | omega

theorem is_hex_digit_iff (c : Nat) : is_hex_digit c = true ↔ IsHexChar c := by
  constructor
  · intro h
    by_contra hc
    have := hex_digit_value_of_not_isHexChar hc
    simp [is_hex_digit, this] at h
  · intro h
    have := hex_digit_value_lt_of_isHexChar h
    simp only [is_hex_digit, bne_iff_ne, ne_eq, UINT_MAX]
    omega

theorem nibbles_or (a b : Nat) (ha : a < 16) (hb : b < 16) :
    (((a <<< 4) % UINT_MOD) ||| b) % 256 = a * 16 + b := by
  have h1 : a <<< 4 = 2 ^ 4 * a := by rw [Nat.shiftLeft_eq]; ring
  have h2 : (2 ^ 4 * a) % UINT_MOD = 2 ^ 4 * a := Nat.mod_eq_of_lt (by unfold UINT_MOD; omega)
  have hb4 : b < 2 ^ 4 := by omega
  rw [h1, h2, ← Nat.mul_add_lt_is_or hb4 a]
  omega

theorem hex_from_nibbles_ok {a b : Nat} (ha : IsHexChar a) (hb : IsHexChar b) :
    hex_from_nibbles a b = .ok (hex_digit_value a * 16 + hex_digit_value b) := by
  have h1 := hex_digit_value_lt_of_isHexChar ha
  have h2 := hex_digit_value_lt_of_isHexChar hb
  have n1 : hex_digit_value a ≠ UINT_MAX := by unfold UINT_MAX; omega
  have n2 : hex_digit_value b ≠ UINT_MAX := by unfold UINT_MAX; omega
  have hc : (hex_digit_value a != UINT_MAX && hex_digit_value b != UINT_MAX) = true := by
    simp [n1, n2]
  simp only [hex_from_nibbles, hc, if_true, nibbles_or _ _ h1 h2]

theorem hex_from_nibbles_error {a b : Nat} (h : ¬ (IsHexChar a ∧ IsHexChar b)) :
    hex_from_nibbles a b = .error .InvalidHexDigit := by
  have : hex_digit_value a = UINT_MAX ∨ hex_digit_value b = UINT_MAX := by
    by_cases ha : IsHexChar a
    · right
      exact hex_digit_value_of_not_isHexChar (fun hb => h ⟨ha, hb⟩)
    · left
      exact hex_digit_value_of_not_isHexChar ha
  rcases this with e | e <;> simp [hex_from_nibbles, e]

theorem isHexChar_zero_digit : IsHexChar 48 := by decide

/-- C8: for every `v < 16` and both case flags, `hex_digit_value(hexdigit(v, lowerCase)) = v`. -/
theorem hex_digit_value_hexdigit (v : Nat) (lowerCase : Bool) (hv : v < 16) :
    hex_digit_value (hexdigit v lowerCase) = v := by
  revert lowerCase
  revert v
  decide

theorem hex_digit_value_hexdigit_witness :
    (11 : Nat) < 16 ∧ hex_digit_value (hexdigit 11 true) = 11 :=
  ⟨by decide, hex_digit_value_hexdigit 11 true (by decide)⟩

/-- C9: `hex_digit_value(c)` lies in `[0,15]` when `c` is one of `0-9`, `a-f`, `A-F` and is
the sentinel `-1U` (the largest `unsigned`) for every other character, so `is_hex_digit(c)`
holds exactly for the characters `0-9`, `a-f`, `A-F`. -/
theorem hex_digit_value_classifies (c : Nat) :
    (IsHexChar c → hex_digit_value c ≤ 15) ∧
    (¬ IsHexChar c → hex_digit_value c = UINT_MAX ∧ UINT_MAX = 2 ^ 32 - 1) ∧
    (is_hex_digit c = true ↔ IsHexChar c) := by
  refine ⟨fun h => ?_, fun h => ⟨hex_digit_value_of_not_isHexChar h, by decide⟩,
    is_hex_digit_iff c⟩
  have := hex_digit_value_lt_of_isHexChar h
  omega

/-! ## `from_hex` -/

theorem decodePairs_length : ∀ s : List Nat, (decodePairs s).length = s.length / 2
  | [] => by simp [decodePairs]
  | [_] => by simp [decodePairs]
  | _ :: _ :: rest => by
    simp only [decodePairs, List.length_cons, decodePairs_length rest]
    omega

theorem from_hex_loop_ok : ∀ (s output : List Nat), (∀ c ∈ s, IsHexChar c) →
    s.length % 2 = 0 → from_hex_loop s output = .ok (output ++ decodePairs s)
  | [], output, _, _ => by simp [from_hex_loop, decodePairs]
  | [_], _, _, hl => by simp at hl
  | c0 :: c1 :: rest, output, hs, hl => by
    have h0 : IsHexChar c0 := hs c0 (by simp)
    have h1 : IsHexChar c1 := hs c1 (by simp)
    have hr : ∀ c ∈ rest, IsHexChar c := fun c hc => hs c (by simp [hc])
    have hl2 : rest.length % 2 = 0 := by simp only [List.length_cons] at hl; omega
    simp only [from_hex_loop, hex_from_nibbles_ok h0 h1, decodePairs]
    rw [from_hex_loop_ok rest _ hr hl2]
    simp

theorem from_hex_loop_error : ∀ (s output : List Nat), (∃ c ∈ s, ¬ IsHexChar c) →
    s.length % 2 = 0 → from_hex_loop s output = .error .InvalidHexDigit
  | [], _, hs, _ => by simp at hs
  | [_], _, _, hl => by simp at hl
  | c0 :: c1 :: rest, output, hs, hl => by
    have hl2 : rest.length % 2 = 0 := by simp only [List.length_cons] at hl; omega
    by_cases h01 : IsHexChar c0 ∧ IsHexChar c1
    · have hr : ∃ c ∈ rest, ¬ IsHexChar c := by
        obtain ⟨c, hc, hn⟩ := hs
        simp only [List.mem_cons] at hc
        rcases hc with rfl | rfl | hc
        · exact absurd h01.1 hn
        · exact absurd h01.2 hn
        · exact ⟨c, hc, hn⟩
      simp only [from_hex_loop, hex_from_nibbles_ok h01.1 h01.2]
      exact from_hex_loop_error rest _ hr hl2
    · simp only [from_hex_loop, hex_from_nibbles_error h01]

theorem from_hex_ok (s : List Nat) (hs : ∀ c ∈ s, IsHexChar c) :
    from_hex s = .ok (decodeText s) := by
  cases s with
  | nil => rfl
  | cons front tail =>
    have hf : IsHexChar front := hs front (by simp)
    have ht : ∀ c ∈ tail, IsHexChar c := fun c hc => hs c (by simp [hc])
    by_cases hodd : (front :: tail).length % 2 = 1
    · have hl : tail.length % 2 = 0 := by simp only [List.length_cons] at hodd; omega
      simp only [from_hex, hodd, if_true, hex_from_nibbles_ok isHexChar_zero_digit hf,
        decodeText, decodePairs]
      rw [from_hex_loop_ok tail _ ht hl]
      rfl
    · have hl : (front :: tail).length % 2 = 0 := by omega
      simp only [from_hex, hodd, if_false, decodeText]
      rw [from_hex_loop_ok _ _ hs hl]
      rfl

theorem from_hex_error (s : List Nat) (hs : ∃ c ∈ s, ¬ IsHexChar c) :
    from_hex s = .error .InvalidHexDigit := by
  cases s with
  | nil => simp at hs
  | cons front tail =>
    by_cases hodd : (front :: tail).length % 2 = 1
    · have hl : tail.length % 2 = 0 := by simp only [List.length_cons] at hodd; omega
      by_cases hf : IsHexChar front
      · have ht : ∃ c ∈ tail, ¬ IsHexChar c := by
          obtain ⟨c, hc, hn⟩ := hs
          simp only [List.mem_cons] at hc
          rcases hc with rfl | hc
          · exact absurd hf hn
          · exact ⟨c, hc, hn⟩
        simp only [from_hex, hodd, if_true, hex_from_nibbles_ok isHexChar_zero_digit hf]
        exact from_hex_loop_error tail _ ht hl
      · have : ¬ (IsHexChar 48 ∧ IsHexChar front) := fun h => hf h.2
        simp only [from_hex, hodd, if_true, hex_from_nibbles_error this]
    · have hl : (front :: tail).length % 2 = 0 := by omega
      simp only [from_hex, hodd, if_false]
      exact from_hex_loop_error _ _ hs hl

theorem decodeText_length (s : List Nat) : (decodeText s).length = (s.length + 1) / 2 := by
  unfold decodeText
  split_ifs with h
  · rw [decodePairs_length]
    simp only [List.length_cons]
  · rw [decodePairs_length]
    omega

/-! ## `to_hex` -/

theorem lut_getD_spec : ∀ k, k < 16 →
    IsHexChar (lut.getD k 0) ∧ hex_digit_value (lut.getD k 0) = k := by
  decide

theorem shiftRight_four_lt (ch : Nat) : (ch % 256) >>> 4 < 16 := by
  rw [Nat.shiftRight_eq_div_pow]
  omega

theorem and_fifteen (c : Nat) : c &&& 15 = c % 16 :=
  Nat.and_pow_two_sub_one_eq_mod c 4

theorem and_fifteen_lt (ch : Nat) : (ch % 256) &&& 15 < 16 := by
  rw [and_fifteen]
  omega

theorem to_hex_foldl (input acc : List Nat) :
    input.foldl
      (fun output ch =>
        let c := ch % 256
        (output ++ [lut.getD (c >>> 4) 0]) ++ [lut.getD (c &&& 15) 0])
      acc = acc ++ input.flatMap hexPair := by
  induction input generalizing acc with
  | nil => simp
  | cons x xs ih =>
    simp only [List.foldl_cons, List.flatMap_cons, ih, hexPair]
    simp

theorem to_hex_eq_flatMap (input : List Nat) : to_hex input = input.flatMap hexPair := by
  unfold to_hex
  rw [to_hex_foldl]
  simp

theorem to_hex_cons (x : Nat) (xs : List Nat) :
    to_hex (x :: xs) =
      lut.getD ((x % 256) >>> 4) 0 :: lut.getD ((x % 256) &&& 15) 0 :: to_hex xs := by
  simp [to_hex_eq_flatMap, hexPair]

theorem to_hex_length (input : List Nat) : (to_hex input).length = 2 * input.length := by
  induction input with
  | nil => rfl
  | cons x xs ih =>
    rw [to_hex_cons]
    simp only [List.length_cons, ih]
    omega

theorem to_hex_isHexChar (input : List Nat) : ∀ c ∈ to_hex input, IsHexChar c := by
  induction input with
  | nil => intro c hc; simp [to_hex] at hc
  | cons x xs ih =>
    intro c hc
    rw [to_hex_cons] at hc
    simp only [List.mem_cons] at hc
    rcases hc with rfl | rfl | hc
    · exact (lut_getD_spec _ (shiftRight_four_lt x)).1
    · exact (lut_getD_spec _ (and_fifteen_lt x)).1
    · exact ih c hc

theorem decodePairs_to_hex (input : List Nat) :
    decodePairs (to_hex input) = input.map (· % 256) := by
  induction input with
  | nil => rfl
  | cons x xs ih =>
    rw [to_hex_cons]
    simp only [decodePairs, ih, List.map_cons,
      (lut_getD_spec _ (shiftRight_four_lt x)).2, (lut_getD_spec _ (and_fifteen_lt x)).2]
    congr 1
    rw [and_fifteen, Nat.shiftRight_eq_div_pow]
    omega

theorem to_hex_getElem? (input : List Nat) (i : Nat) (hi : i < input.length) :
    (to_hex input)[2 * i]? = some (lut.getD ((input[i] % 256) >>> 4) 0) ∧
    (to_hex input)[2 * i + 1]? = some (lut.getD ((input[i] % 256) &&& 15) 0) := by
  induction input generalizing i with
  | nil => simp at hi
  | cons x xs ih =>
    rw [to_hex_cons]
    cases i with
    | zero => simp
    | succ j =>
      have hj : j < xs.length := by simpa using hi
      have e1 : 2 * (j + 1) = 2 * j + 1 + 1 := by omega
      rw [e1]
      simpa using ih j hj

/-! ## Claims on the byte codec -/

/-- C1: for every byte sequence `b` (all values in `0..255`), `from_hex(to_hex(b))` succeeds
and is `b`. -/
theorem from_hex_to_hex (b : List Nat) (hb : ∀ x ∈ b, x < 256) :
    from_hex (to_hex b) = .ok b := by
  rw [from_hex_ok _ (to_hex_isHexChar b)]
  have hl : ¬ (to_hex b).length % 2 = 1 := by rw [to_hex_length]; omega
  simp only [decodeText, hl, if_false, decodePairs_to_hex]
  congr 1
  calc b.map (· % 256) = b.map id :=
        List.map_congr_left (fun x hx => Nat.mod_eq_of_lt (hb x hx))
    _ = b := List.map_id b

theorem from_hex_to_hex_witness :
    (∀ x ∈ [0, 127, 128, 171, 255], x < 256) ∧
      from_hex (to_hex [0, 127, 128, 171, 255]) = .ok [0, 127, 128, 171, 255] :=
  ⟨by decide, from_hex_to_hex [0, 127, 128, 171, 255] (by decide)⟩

/-- C2: for a byte sequence `b` of length `n`, `to_hex(b)` has length `2*n`, and for `i < n`
the characters at `2*i` and `2*i+1` are the characters of `"0123456789ABCDEF"` at the high
nibble `b[i] / 16` and at the low nibble `b[i] mod 16`; `to_hex` of the empty input is empty. -/
theorem to_hex_spec (b : List Nat) (hb : ∀ x ∈ b, x < 256) :
    (to_hex b).length = 2 * b.length ∧
    (∀ i (hi : i < b.length),
      b[i] / 16 < 16 ∧ b[i] % 16 < 16 ∧
      (to_hex b)[2 * i]? = (bytes "0123456789ABCDEF")[b[i] / 16]? ∧
      (to_hex b)[2 * i + 1]? = (bytes "0123456789ABCDEF")[b[i] % 16]?) ∧
    to_hex [] = [] := by
  refine ⟨to_hex_length b, fun i hi => ?_, rfl⟩
  have hx : b[i] < 256 := hb _ (List.getElem_mem hi)
  have hm : b[i] % 256 = b[i] := Nat.mod_eq_of_lt hx
  have hlut : bytes "0123456789ABCDEF" = lut := by decide
  have h1 : b[i] / 16 < 16 := by omega
  have h2 : b[i] % 16 < 16 := by omega
  obtain ⟨g1, g2⟩ := to_hex_getElem? b i hi
  rw [hm] at g1 g2
  rw [and_fifteen] at g2
  rw [Nat.shiftRight_eq_div_pow] at g1
  have l1 : (b[i] / 16) < lut.length := h1
  have l2 : (b[i] % 16) < lut.length := h2
  refine ⟨h1, h2, ?_, ?_⟩
  · rw [g1, hlut, List.getD_eq_getElem?_getD, List.getElem?_eq_getElem l1]
    rfl
  · rw [g2, hlut, List.getD_eq_getElem?_getD, List.getElem?_eq_getElem l2]
    rfl

theorem to_hex_spec_witness :
    (∀ x ∈ [0, 255, 171], x < 256) ∧ (to_hex [0, 255, 171]).length = 2 * 3 :=
  ⟨by decide, (to_hex_spec [0, 255, 171] (by decide)).1⟩

/-- C3: for an odd-length text `s` of hex digits, `from_hex(s)` is `from_hex("0" ++ s)`: the
first character alone gives the first output byte, whose high nibble is zero and whose low
nibble is the value of that character, and the remaining characters are decoded pairwise;
`from_hex("F")` is the single byte `0x0F`. -/
theorem from_hex_odd (s : List Nat) (hodd : s.length % 2 = 1) (hs : ∀ c ∈ s, IsHexChar c) :
    from_hex s = from_hex (48 :: s) ∧
    (∃ c rest tail, s = c :: rest ∧ from_hex rest = .ok tail ∧ tail = decodePairs rest ∧
      hex_digit_value c < 16 ∧ from_hex s = .ok (hex_digit_value c :: tail)) ∧
    from_hex (bytes "F") = .ok [15] := by
  have hs0 : ∀ c ∈ 48 :: s, IsHexChar c := by
    intro c hc
    simp only [List.mem_cons] at hc
    rcases hc with rfl | hc
    · exact isHexChar_zero_digit
    · exact hs c hc
  have hev : ¬ (48 :: s).length % 2 = 1 := by simp only [List.length_cons]; omega
  have e0 : from_hex s = .ok (decodePairs (48 :: s)) := by
    rw [from_hex_ok s hs]; simp only [decodeText, hodd, if_true]
  refine ⟨?_, ?_, by decide⟩
  · rw [e0, from_hex_ok _ hs0]
    simp only [decodeText, hev, if_false]
  · cases s with
    | nil => simp at hodd
    | cons c rest =>
      have hr : ∀ x ∈ rest, IsHexChar x := fun x hx => hs x (by simp [hx])
      have hrl : ¬ rest.length % 2 = 1 := by simp only [List.length_cons] at hodd; omega
      refine ⟨c, rest, decodePairs rest, rfl, ?_, rfl,
        hex_digit_value_lt_of_isHexChar (hs c (by simp)), ?_⟩
      · rw [from_hex_ok rest hr]; simp only [decodeText, hrl, if_false]
      · rw [e0]
        have h48 : hex_digit_value 48 = 0 := by decide
        simp only [decodePairs, h48, Nat.zero_mul, Nat.zero_add]

theorem from_hex_odd_witness :
    (bytes "abC").length % 2 = 1 ∧ (∀ c ∈ bytes "abC", IsHexChar c) ∧
      from_hex (bytes "abC") = from_hex (48 :: bytes "abC") :=
  ⟨by decide, by decide, (from_hex_odd (bytes "abC") (by decide) (by decide)).1⟩

/-- C4: with the assertion of `hex_from_nibbles` surfaced as `InvalidHexDigit`, `from_hex(s)`
fails exactly when some character of `s` is not one of `0-9`, `a-f`, `A-F`, the failure is
`InvalidHexDigit`, and `from_hex` succeeds on every text of hex digits, the empty one included. -/
theorem from_hex_fails_iff (s : List Nat) :
    ((∃ e, from_hex s = .error e) ↔ ∃ c ∈ s, ¬ IsHexChar c) ∧
    (∀ e, from_hex s = .error e → e = .InvalidHexDigit) ∧
    ((∃ out, from_hex s = .ok out) ↔ ∀ c ∈ s, IsHexChar c) ∧
    from_hex [] = .ok [] := by
  by_cases h : ∀ c ∈ s, IsHexChar c
  · have e := from_hex_ok s h
    refine ⟨⟨?_, ?_⟩, ?_, ⟨fun _ => h, fun _ => ⟨_, e⟩⟩, rfl⟩
    · rintro ⟨err, he⟩
      rw [e] at he
      cases he
    · rintro ⟨c, hc, hn⟩
      exact absurd (h c hc) hn
    · intro err he
      rw [e] at he
      cases he
  · have h2 : ∃ c ∈ s, ¬ IsHexChar c := by
      by_contra hcon
      apply h
      intro c hc
      by_contra hn
      exact hcon ⟨c, hc, hn⟩
    have e := from_hex_error s h2
    refine ⟨⟨fun _ => h2, fun _ => ⟨_, e⟩⟩, ?_, ⟨?_, fun hall => absurd hall h⟩, rfl⟩
    · intro err he
      rw [e] at he
      cases he
      rfl
    · rintro ⟨out, ho⟩
      rw [e] at ho
      cases ho

/-- C5: for a text `s` of hex digits, `from_hex(s)` has length `(len(s) + 1) / 2`. -/
theorem from_hex_length (s : List Nat) (hs : ∀ c ∈ s, IsHexChar c) :
    ∃ out, from_hex s = .ok out ∧ out.length = (s.length + 1) / 2 :=
  ⟨decodeText s, from_hex_ok s hs, decodeText_length s⟩

theorem from_hex_length_witness :
    (∀ c ∈ bytes "1a2B3", IsHexChar c) ∧
      ∃ out, from_hex (bytes "1a2B3") = .ok out ∧ out.length = ((bytes "1a2B3").length + 1) / 2 :=
  ⟨by decide, from_hex_length (bytes "1a2B3") (by decide)⟩

/-! ## `utohexstr` -/

theorem hexdigit_spec : ∀ v, v < 16 → ∀ lowerCase : Bool,
    IsHexChar (hexdigit v lowerCase) ∧ hex_digit_value (hexdigit v lowerCase) = v ∧
      (v ≠ 0 → hexdigit v lowerCase ≠ 48) := by
  decide

theorem readHex_append_singleton (ds : List Nat) (d : Nat) :
    readHex (ds ++ [d]) = readHex ds * 16 + hex_digit_value d := by
  simp [readHex, List.foldl_append]

theorem utohexstr_loop_zero (lowerCase : Bool) (p : Nat) (text : List Nat) :
    utohexstr_loop lowerCase p 0 text = some { bufPtr := p, text := text } := by
  cases p <;> simp [utohexstr_loop]

theorem utohexstr_loop_succ (lowerCase : Bool) (p c : Nat) (text : List Nat) (hc : c ≠ 0) :
    utohexstr_loop lowerCase (p + 1) c text =
      utohexstr_loop lowerCase p (c / 16) (hexdigit (c % 16) lowerCase :: text) := by
  have e : (c % 256) &&& 15 = c % 16 := by rw [and_fifteen]; omega
  rw [utohexstr_loop]
  simp only [hc, if_false, e, Nat.shiftRight_eq_div_pow]

theorem utohexstr_loop_spec (lowerCase : Bool) :
    ∀ (p c : Nat) (text : List Nat), c < 16 ^ p →
      ∃ ds : List Nat,
        utohexstr_loop lowerCase p c text = some { bufPtr := p - ds.length, text := ds ++ text } ∧
        ds.length ≤ p ∧ (∀ d ∈ ds, IsHexChar d) ∧ readHex ds = c ∧ (c = 0 → ds = []) ∧
        (c ≠ 0 → ds.head? ≠ some 48 ∧ 16 ^ (ds.length - 1) ≤ c ∧ c < 16 ^ ds.length) := by
  intro p
  induction p with
  | zero =>
    intro c text hc
    have hc0 : c = 0 := by simpa using hc
    subst hc0
    exact ⟨[], by simp [utohexstr_loop_zero], by simp, by simp, rfl, fun _ => rfl,
      fun h => absurd rfl h⟩
  | succ p ih =>
    intro c text hc
    by_cases hc0 : c = 0
    · subst hc0
      exact ⟨[], by simp [utohexstr_loop_zero], by simp, by simp, rfl, fun _ => rfl,
        fun h => absurd rfl h⟩
    · have hq : c / 16 < 16 ^ p := by
        rw [pow_succ] at hc
        omega
      have hm : c % 16 < 16 := Nat.mod_lt _ (by decide)
      obtain ⟨hd1, hd2, hd3⟩ := hexdigit_spec (c % 16) hm lowerCase
      obtain ⟨ds, h1, h2, h3, h4, h5, h6⟩ :=
        ih (c / 16) (hexdigit (c % 16) lowerCase :: text) hq
      refine ⟨ds ++ [hexdigit (c % 16) lowerCase], ?_, ?_, ?_, ?_, fun h => absurd h hc0,
        fun _ => ?_⟩
      · rw [utohexstr_loop_succ lowerCase p c text hc0, h1]
        simp
      · simp only [List.length_append, List.length_singleton]
        omega
      · intro d hd
        simp only [List.mem_append, List.mem_singleton] at hd
        rcases hd with hd | rfl
        · exact h3 d hd
        · exact hd1
      · rw [readHex_append_singleton, h4, hd2]
        omega
      · by_cases hz : c / 16 = 0
        · have hds : ds = [] := h5 hz
          subst hds
          have hcm : c % 16 ≠ 0 := by omega
          refine ⟨?_, ?_, ?_⟩
          · simpa using hd3 hcm
          · simp only [List.nil_append, List.length_singleton, Nat.sub_self, pow_zero]
            omega
          · simp only [List.nil_append, List.length_singleton, pow_one]
            omega
        · obtain ⟨g1, g2, g3⟩ := h6 hz
          have hne : ds ≠ [] := by
            intro hnil
            subst hnil
            simp at g3
            exact hz g3
          obtain ⟨k, hk⟩ : ∃ k, ds.length = k + 1 :=
            ⟨ds.length - 1, by have := List.length_pos.mpr hne; omega⟩
          refine ⟨?_, ?_, ?_⟩
          · cases ds with
            | nil => exact absurd rfl hne
            | cons a as => simpa using g1
          · simp only [List.length_append, List.length_singleton, hk, Nat.add_sub_cancel] at g2 ⊢
            rw [pow_succ]
            omega
          · simp only [List.length_append, List.length_singleton, hk] at g3 ⊢
            rw [pow_succ] at g3 ⊢
            rw [pow_succ]
            omega

theorem utohexstr_buffer_spec (v : Nat) (lowerCase : Bool) (hv : v < 2 ^ 64) :
    ∃ ds : List Nat,
      utohexstr_buffer v lowerCase = some { bufPtr := 17 - ds.length, text := ds } ∧
      1 ≤ ds.length ∧ ds.length ≤ 16 ∧ (∀ d ∈ ds, IsHexChar d) ∧ readHex ds = v ∧
      (v = 0 → ds = [48]) ∧
      (v ≠ 0 → ds.head? ≠ some 48 ∧ 16 ^ (ds.length - 1) ≤ v ∧ v < 16 ^ ds.length) := by
  have hmod : v % 2 ^ 64 = v := Nat.mod_eq_of_lt hv
  by_cases hv0 : v = 0
  · subst hv0
    refine ⟨[48], by simp [utohexstr_buffer, utohexstr_loop_zero], by decide, by decide,
      by decide, by decide, fun _ => rfl, fun h => absurd rfl h⟩
  · have hlt : v < 16 ^ 17 := lt_trans hv (by norm_num)
    obtain ⟨ds, h1, _, h3, h4, _, h6⟩ := utohexstr_loop_spec lowerCase 17 v [] hlt
    obtain ⟨g1, g2, g3⟩ := h6 hv0
    have hpos : 1 ≤ ds.length := by
      by_contra hcon
      have : ds.length = 0 := by omega
      rw [this] at g3
      simp at g3
      exact hv0 g3
    have hle : ds.length ≤ 16 := by
      by_contra hcon
      have h16 : 16 ≤ ds.length - 1 := by omega
      have : 16 ^ 16 ≤ 16 ^ (ds.length - 1) := Nat.pow_le_pow_right (by decide) h16
      have hv16 : v < 16 ^ 16 := lt_of_lt_of_le hv (by norm_num)
      omega
    refine ⟨ds, ?_, hpos, hle, h3, h4, fun h => absurd h hv0, fun _ => ⟨g1, g2, g3⟩⟩
    simp only [utohexstr_buffer, hmod, hv0, if_false, h1, List.append_nil]

/-- C6: for every 64-bit `v` and both case flags, `utohexstr(v, lowerCase)` returns a text of
hex digits whose reading, most significant digit first through `hex_digit_value`, is `v`;
`utohexstr(255, false)` is `"FF"` and `utohexstr(255, true)` is `"ff"`. -/
theorem utohexstr_renders (v : Nat) (lowerCase : Bool) (hv : v < 2 ^ 64) :
    (∃ s : List Nat, utohexstr v lowerCase = some s ∧
      (∀ ch ∈ s, is_hex_digit ch = true) ∧
      s.foldl (fun acc ch => acc * 16 + hex_digit_value ch) 0 = v) ∧
    utohexstr 255 false = some (bytes "FF") ∧ utohexstr 255 true = some (bytes "ff") := by
  obtain ⟨ds, h1, _, _, h4, h5, _, _⟩ := utohexstr_buffer_spec v lowerCase hv
  refine ⟨⟨ds, ?_, fun ch hch => (is_hex_digit_iff ch).mpr (h4 ch hch), h5⟩,
    by decide, by decide⟩
  simp [utohexstr, h1]

theorem utohexstr_renders_witness :
    (3054 : Nat) < 2 ^ 64 ∧
      ∃ s : List Nat, utohexstr 3054 true = some s ∧
        (∀ ch ∈ s, is_hex_digit ch = true) ∧
        s.foldl (fun acc ch => acc * 16 + hex_digit_value ch) 0 = 3054 :=
  ⟨by decide, (utohexstr_renders 3054 true (by decide)).1⟩

/-- C7: for every 64-bit `v` and both case flags, `utohexstr(v, lowerCase)` is non-empty, is
the text `"0"` when `v = 0`, and does not start with `'0'` when `v` is non-zero. -/
theorem utohexstr_no_leading_zero (v : Nat) (lowerCase : Bool) (hv : v < 2 ^ 64) :
    ∃ s : List Nat, utohexstr v lowerCase = some s ∧ s ≠ [] ∧
      (v = 0 → s = bytes "0") ∧ (v ≠ 0 → s.head? ≠ some 48) := by
  obtain ⟨ds, h1, h2, _, _, _, h6, h7⟩ := utohexstr_buffer_spec v lowerCase hv
  refine ⟨ds, by simp [utohexstr, h1], ?_, ?_, fun h => (h7 h).1⟩
  · intro hnil
    rw [hnil] at h2
    simp at h2
  · intro h0
    rw [h6 h0]
    decide

theorem utohexstr_no_leading_zero_witness :
    (4096 : Nat) < 2 ^ 64 ∧
      ∃ s : List Nat, utohexstr 4096 false = some s ∧ s ≠ [] ∧
        ((4096 : Nat) = 0 → s = bytes "0") ∧ ((4096 : Nat) ≠ 0 → s.head? ≠ some 48) :=
  ⟨by decide, utohexstr_no_leading_zero 4096 false (by decide)⟩

/-! ## `join` -/

theorem join_loop_append (separator : List Nat) (rest : List (List Nat)) (a b : List Nat) :
    join_loop separator rest (a ++ b) = a ++ join_loop separator rest b := by
  induction rest generalizing b with
  | nil => rfl
  | cons x r ih =>
    simp only [join_loop]
    rw [List.append_assoc a b separator, List.append_assoc a (b ++ separator) x, ih]

theorem join_impl_forward_eq_input (xs : List (List Nat)) (separator : List Nat) :
    join_impl_forward xs separator = join_impl_input xs separator := by
  cases xs <;> rfl

theorem join_impl_input_cons_cons (x y : List Nat) (rest : List (List Nat))
    (separator : List Nat) :
    join_impl_input (x :: y :: rest) separator =
      x ++ separator ++ join_impl_input (y :: rest) separator := by
  simp only [join_impl_input, join_loop, List.nil_append]
  rw [join_loop_append]

theorem join_impl_input_eq_intercalate (xs : List (List Nat)) (separator : List Nat) :
    join_impl_input xs separator = List.intercalate separator xs := by
  induction xs with
  | nil => rfl
  | cons x rest ih =>
    cases rest with
    | nil => simp [join_impl_input, join_loop, List.intercalate]
    | cons y zs =>
      rw [join_impl_input_cons_cons, ih]
      simp [List.intercalate]

theorem join_eq_input (tag : IteratorTag) (xs : List (List Nat)) (separator : List Nat) :
    join tag xs separator = join_impl_input xs separator := by
  cases tag
  · rfl
  · exact join_impl_forward_eq_input xs separator

/-- C10: `join(xs, sep)` is the elements of `xs` in order with `sep` between each two
consecutive elements and nowhere else: empty for no element, the element itself for one
element, `x ++ sep ++ join(y :: rest, sep)` for more; `join(["a","b","c"], "-")` is `"a-b-c"`.
This holds on both traversal paths. -/
theorem join_spec (tag : IteratorTag) (sep : List Nat) :
    join tag [] sep = [] ∧
    (∀ x, join tag [x] sep = x) ∧
    (∀ x y rest, join tag (x :: y :: rest) sep = x ++ sep ++ join tag (y :: rest) sep) ∧
    (∀ xs, join tag xs sep = List.intercalate sep xs) ∧
    join tag [bytes "a", bytes "b", bytes "c"] (bytes "-") = bytes "a-b-c" := by
  refine ⟨?_, ?_, ?_, ?_, ?_⟩
  · rw [join_eq_input]; rfl
  · intro x
    rw [join_eq_input]
    simp [join_impl_input, join_loop]
  · intro x y rest
    rw [join_eq_input, join_eq_input, join_impl_input_cons_cons]
  · intro xs
    rw [join_eq_input, join_impl_input_eq_intercalate]
  · cases tag <;> decide

/-! ## The length `join_impl` reserves, and the two paths of `join_impl` -/

theorem foldl_add_const (xs : List (List Nat)) (k init : Nat) :
    xs.foldl (fun len _ => len + k) init = init + xs.length * k := by
  induction xs generalizing init with
  | nil => simp
  | cons x rest ih =>
    simp only [List.foldl_cons, List.length_cons, ih]
    ring

theorem join_impl_forward_len_eq (first : List Nat) (rest : List (List Nat))
    (separator : List Nat) :
    join_impl_forward_len (first :: rest) separator =
      rest.length * separator.length + (rest.length + 1) * first.length := by
  simp only [join_impl_forward_len, foldl_add_const, List.length_cons, Nat.add_sub_cancel]

/-- C16: on the input `["a", "bb"]` with separator `"-"` the forward path of `join_impl`
reserves `len = 3`, which is the separator size plus twice the size of the first element,
while the sum of the element sizes plus one separator, and the length of the string it
returns, is 4. -/
theorem join_impl_forward_len_counts_first_only :
    join_impl_forward_len [bytes "a", bytes "bb"] (bytes "-") = 3 ∧
    (bytes "a").length + (bytes "bb").length + (2 - 1) * (bytes "-").length = 4 ∧
    (join_impl_forward [bytes "a", bytes "bb"] (bytes "-")).length = 4 ∧
    join_impl_forward [bytes "a", bytes "bb"] (bytes "-") = bytes "a-bb" := by
  decide

/-- C17: for every sequence of texts and every separator, the single-pass
(`input_iterator_tag`) and the pre-sized (`forward_iterator_tag`) overloads of `join_impl`
return the same string. -/
theorem join_impl_paths_agree (xs : List (List Nat)) (sep : List Nat) :
    join_impl_input xs sep = join_impl_forward xs sep := by
  cases xs with
  | nil => rfl
  | cons first rest => simp only [join_impl_input, join_impl_forward, reserve]

/-! ## `get_ordinal_suffix` -/

/-- C14: `get_ordinal_suffix(n)` is `"th"` when `n mod 100` is 11, 12 or 13, and otherwise
`"st"`, `"nd"`, `"rd"` for `n mod 10` equal to 1, 2, 3 and `"th"` in every other case; the
results for 1, 2, 3, 4, 11, 12, 13, 21, 101, 111 are st, nd, rd, th, th, th, th, st, st, th. -/
theorem get_ordinal_suffix_spec (n : Nat) :
    ((n % 100 = 11 ∨ n % 100 = 12 ∨ n % 100 = 13) → get_ordinal_suffix n = bytes "th") ∧
    (¬ (n % 100 = 11 ∨ n % 100 = 12 ∨ n % 100 = 13) →
      (n % 10 = 1 → get_ordinal_suffix n = bytes "st") ∧
      (n % 10 = 2 → get_ordinal_suffix n = bytes "nd") ∧
      (n % 10 = 3 → get_ordinal_suffix n = bytes "rd") ∧
      (¬ (n % 10 = 1 ∨ n % 10 = 2 ∨ n % 10 = 3) → get_ordinal_suffix n = bytes "th")) ∧
    [1, 2, 3, 4, 11, 12, 13, 21, 101, 111].map get_ordinal_suffix =
      [bytes "st", bytes "nd", bytes "rd", bytes "th", bytes "th", bytes "th", bytes "th",
        bytes "st", bytes "st", bytes "th"] := by
  refine ⟨?_, ?_, by decide⟩
  · rintro (h | h | h) <;> simp [get_ordinal_suffix, h]
  · intro h
    have h11 : n % 100 ≠ 11 := fun e => h (Or.inl e)
    have h12 : n % 100 ≠ 12 := fun e => h (Or.inr (Or.inl e))
    have h13 : n % 100 ≠ 13 := fun e => h (Or.inr (Or.inr e))
    have outer : get_ordinal_suffix n =
        (match n % 10 with
          | 1 => bytes "st"
          | 2 => bytes "nd"
          | 3 => bytes "rd"
          | _ => bytes "th") := by
      unfold get_ordinal_suffix
      split
      · next e => exact absurd e h11
      · next e => exact absurd e h12
      · next e => exact absurd e h13
      · rfl
    rw [outer]
    refine ⟨fun e => by rw [e], fun e => by rw [e], fun e => by rw [e], fun e => ?_⟩
    split
    · next e1 => exact absurd (Or.inl e1) e
    · next e2 => exact absurd (Or.inr (Or.inl e2)) e
    · next e3 => exact absurd (Or.inr (Or.inr e3)) e
    · rfl

/-! ## `to_lower` and `to_upper` -/

theorem to_upper_spec (c : Nat) :
    ((97 ≤ c ∧ c ≤ 122) → to_upper c = c - 32) ∧ (¬ (97 ≤ c ∧ c ≤ 122) → to_upper c = c) := by
  unfold to_upper
  constructor
  · intro h
    rw [if_pos h]
    omega
  · intro h
    rw [if_neg h]

/-- C15: whatever the undeclared `x` in the test of `to_lower` stands for, `to_lower` departs
from the claimed mapping on a letter: when `x <= 'Z'` it sends the lowercase letter `'a'`
(97) to the byte 129 instead of leaving it unchanged, and when `x > 'Z'` it leaves the
uppercase letter `'A'` (65) unchanged instead of returning `'a'`. The sibling `to_upper` does
map `'a'` to `'A'` and leaves `'A'` unchanged. -/
theorem to_lower_misses_upper_bound (x : Nat) :
    ((x ≤ 90 ∧ to_lower x 97 = 129) ∨ (90 < x ∧ to_lower x 65 = 65)) ∧
    to_upper 97 = 65 ∧ to_upper 65 = 65 := by
  refine ⟨?_, by decide, by decide⟩
  by_cases hx : x ≤ 90
  · left
    refine ⟨hx, ?_⟩
    simp [to_lower, hx]
  · right
    refine ⟨by omega, ?_⟩
    simp [to_lower, hx]

/-! ## The write position of `utohexstr` -/

/-- C19: for every 64-bit `v` the digit loop of `utohexstr` ends with the write position
inside the 17-character buffer (at index 1 or later), the result is the part of the buffer
from the write position to its end, its length is between 1 and 16, it is 1 for `v = 0`,
and for `v` non-zero it is the least `k` with `v < 16^k`. -/
theorem utohexstr_write_position (v : Nat) (lowerCase : Bool) (hv : v < 2 ^ 64) :
    ∃ b : HexBuffer, utohexstr_buffer v lowerCase = some b ∧
      utohexstr v lowerCase = some b.text ∧
      b.bufPtr + b.text.length = 17 ∧ 1 ≤ b.bufPtr ∧
      1 ≤ b.text.length ∧ b.text.length ≤ 16 ∧
      (v = 0 → b.text.length = 1) ∧
      (v ≠ 0 → v < 16 ^ b.text.length ∧ ∀ k, v < 16 ^ k → b.text.length ≤ k) := by
  obtain ⟨ds, h1, h2, h3, _, _, h6, h7⟩ := utohexstr_buffer_spec v lowerCase hv
  refine ⟨{ bufPtr := 17 - ds.length, text := ds }, h1, by simp [utohexstr, h1], ?_, ?_, h2, h3,
    ?_, ?_⟩
  · show 17 - ds.length + ds.length = 17
    omega
  · show 1 ≤ 17 - ds.length
    omega
  · intro h0
    rw [h6 h0]
    rfl
  · intro hne
    obtain ⟨_, g2, g3⟩ := h7 hne
    refine ⟨g3, fun k hk => ?_⟩
    have hlt : 16 ^ (ds.length - 1) < 16 ^ k := lt_of_le_of_lt g2 hk
    have := (Nat.pow_lt_pow_iff_right (by decide : 1 < 16)).mp hlt
    show ds.length ≤ k
    omega

theorem utohexstr_write_position_witness :
    (2 ^ 64 - 1 : Nat) < 2 ^ 64 ∧
      ∃ b : HexBuffer, utohexstr_buffer (2 ^ 64 - 1) true = some b ∧
        utohexstr (2 ^ 64 - 1) true = some b.text ∧
        b.bufPtr + b.text.length = 17 ∧ 1 ≤ b.bufPtr ∧
        1 ≤ b.text.length ∧ b.text.length ≤ 16 ∧
        ((2 ^ 64 - 1 : Nat) = 0 → b.text.length = 1) ∧
        ((2 ^ 64 - 1 : Nat) ≠ 0 →
          2 ^ 64 - 1 < 16 ^ b.text.length ∧ ∀ k, 2 ^ 64 - 1 < 16 ^ k → b.text.length ≤ k) :=
  ⟨by decide, utohexstr_write_position (2 ^ 64 - 1) true (by decide)⟩

/-! ## Decoding and encoding again -/

theorem lut_getD_hex_digit_value {a : Nat} (ha : IsHexChar a) :
    lut.getD (hex_digit_value a) 0 = to_upper a := by
  unfold IsHexChar at ha
  have hlt : a < 103 := by omega
  interval_cases a <;> first | rfl | (exfalso; omega)

theorem hexPair_of_nibbles (u1 u2 : Nat) (h1 : u1 < 16) (h2 : u2 < 16) :
    ((u1 * 16 + u2) % 256) >>> 4 = u1 ∧ ((u1 * 16 + u2) % 256) &&& 15 = u2 := by
  rw [and_fifteen, Nat.shiftRight_eq_div_pow]
  constructor <;> omega

theorem to_hex_decodePairs : ∀ t : List Nat, (∀ c ∈ t, IsHexChar c) → t.length % 2 = 0 →
    to_hex (decodePairs t) = t.map to_upper
  | [], _, _ => rfl
  | [_], _, hl => by simp at hl
  | c0 :: c1 :: rest, ht, hl => by
    have h0 : IsHexChar c0 := ht c0 (by simp)
    have h1 : IsHexChar c1 := ht c1 (by simp)
    have hr : ∀ c ∈ rest, IsHexChar c := fun c hc => ht c (by simp [hc])
    have hl2 : rest.length % 2 = 0 := by simp only [List.length_cons] at hl; omega
    obtain ⟨e1, e2⟩ := hexPair_of_nibbles _ _ (hex_digit_value_lt_of_isHexChar h0)
      (hex_digit_value_lt_of_isHexChar h1)
    simp only [decodePairs, to_hex_cons, e1, e2, lut_getD_hex_digit_value h0,
      lut_getD_hex_digit_value h1, to_hex_decodePairs rest hr hl2, List.map_cons]

/-- C18: for a text `s` of hex digits, `to_hex(from_hex(s))` is `s` with every character
mapped through `to_upper` when the length of `s` is even, and `"0"` followed by that when
the length of `s` is odd. -/
theorem to_hex_from_hex (s : List Nat) (hs : ∀ c ∈ s, IsHexChar c) :
    ∃ out, from_hex s = .ok out ∧
      (s.length % 2 = 0 → to_hex out = s.map to_upper) ∧
      (s.length % 2 = 1 → to_hex out = 48 :: s.map to_upper) := by
  refine ⟨decodeText s, from_hex_ok s hs, fun hev => ?_, fun hodd => ?_⟩
  · have hne : ¬ s.length % 2 = 1 := by omega
    simp only [decodeText, hne, if_false]
    exact to_hex_decodePairs s hs hev
  · have hs0 : ∀ c ∈ 48 :: s, IsHexChar c := by
      intro c hc
      simp only [List.mem_cons] at hc
      rcases hc with rfl | hc
      · exact isHexChar_zero_digit
      · exact hs c hc
    have hl : (48 :: s).length % 2 = 0 := by simp only [List.length_cons]; omega
    simp only [decodeText, hodd, if_true]
    rw [to_hex_decodePairs (48 :: s) hs0 hl]
    rfl

theorem to_hex_from_hex_witness :
    (∀ c ∈ bytes "abC", IsHexChar c) ∧
      ∃ out, from_hex (bytes "abC") = .ok out ∧
        ((bytes "abC").length % 2 = 0 → to_hex out = (bytes "abC").map to_upper) ∧
        ((bytes "abC").length % 2 = 1 → to_hex out = 48 :: (bytes "abC").map to_upper) :=
  ⟨by decide, to_hex_from_hex (bytes "abC") (by decide)⟩

/-! ## `join_items` -/

theorem appendItem_of_text (result : List Nat) {item : JoinItem} (h : IsTextItem item) :
    appendItem result item = some (result ++ itemText item) := by
  cases item with
  | chr c => rfl
  | c_str s =>
    cases s with
    | none => exact absurd rfl h
    | some t => rfl
  | str t => rfl

theorem join_one_item_size_eq (item : JoinItem) :
    join_one_item_size item = (itemText item).length := by
  cases item with
  | chr c => rfl
  | c_str s => cases s <;> rfl
  | str t => rfl

theorem join_items_impl_of_text (separator : JoinItem) (hsep : IsTextItem separator) :
    ∀ (args : List JoinItem) (result : List Nat), (∀ item ∈ args, IsTextItem item) →
      join_items_impl result separator args =
        some (result ++ List.intercalate (itemText separator) (args.map itemText))
  | [], result, _ => by simp [join_items_impl, List.intercalate]
  | [item], result, h => by
    simp [join_items_impl, appendItem_of_text result (h item (by simp)), List.intercalate]
  | arg1 :: arg2 :: args, result, h => by
    have h1 : IsTextItem arg1 := h arg1 (by simp)
    have hr : ∀ item ∈ arg2 :: args, IsTextItem item := fun item hi => h item (by simp [hi])
    simp only [join_items_impl, appendItem_of_text result h1, appendItem_of_text _ hsep]
    rw [join_items_impl_of_text separator hsep (arg2 :: args) _ hr]
    simp [List.intercalate]

theorem join_items_length (sepText : List Nat) (sepSize : Nat) (hs : sepSize = sepText.length) :
    ∀ args : List JoinItem, args ≠ [] →
      (List.intercalate sepText (args.map itemText)).length =
        join_items_size args + (args.length - 1) * sepSize
  | [], h => absurd rfl h
  | [item], _ => by
    simp [List.intercalate, join_items_size, join_one_item_size_eq]
  | arg1 :: arg2 :: args, _ => by
    have ih := join_items_length sepText sepSize hs (arg2 :: args) (by simp)
    have e : List.intercalate sepText ((arg1 :: arg2 :: args).map itemText) =
        itemText arg1 ++ sepText ++ List.intercalate sepText ((arg2 :: args).map itemText) := by
      simp [List.intercalate]
    rw [e, List.length_append, List.length_append, ih, join_items_size, join_one_item_size_eq,
      hs]
    simp only [List.length_cons, Nat.add_sub_cancel]
    ring

/-- C11: for a separator and items that are texts or single characters,
`join_items(separator, item1, ..., itemN)` is the items in order with the separator between
consecutive items and nowhere else; no item gives the empty text; for `N >= 1` the length of
the result is `join_items_size(items) + (N-1) * join_one_item_size(separator)`; and
`join_items(",", "a", "bb", "c")` is `"a,bb,c"`. -/
theorem join_items_spec (separator : JoinItem) (items : List JoinItem)
    (hsep : IsTextItem separator) (hitems : ∀ item ∈ items, IsTextItem item) :
    join_items separator items =
      some (List.intercalate (itemText separator) (items.map itemText)) ∧
    (1 ≤ items.length → ∃ r, join_items separator items = some r ∧
      r.length = join_items_size items + (items.length - 1) * join_one_item_size separator) ∧
    join_items separator [] = some [] ∧
    join_items (.c_str (some (bytes ","))) [.c_str (some (bytes "a")),
      .c_str (some (bytes "bb")), .c_str (some (bytes "c"))] = some (bytes "a,bb,c") := by
  have main : join_items separator items =
      some (List.intercalate (itemText separator) (items.map itemText)) := by
    cases items with
    | nil => rfl
    | cons a rest =>
      simp only [join_items, List.length_cons, Nat.add_one_ne_zero, if_false, reserve]
      rw [join_items_impl_of_text separator hsep _ _ hitems]
      simp
  refine ⟨main, fun hn => ⟨_, main, ?_⟩, rfl, by decide⟩
  have hne : items ≠ [] := by
    intro h
    rw [h] at hn
    simp at hn
  exact join_items_length _ _ (join_one_item_size_eq separator) items hne

theorem join_items_spec_witness :
    IsTextItem (.chr 44) ∧
    (∀ item ∈ [JoinItem.c_str (some (bytes "a")), .str (bytes "bb"), .chr 99],
      IsTextItem item) ∧
    join_items (.chr 44) [.c_str (some (bytes "a")), .str (bytes "bb"), .chr 99] =
      some (List.intercalate (itemText (.chr 44))
        ([JoinItem.c_str (some (bytes "a")), .str (bytes "bb"), .chr 99].map itemText)) :=
  ⟨by decide, by decide,
    (join_items_spec (.chr 44) [.c_str (some (bytes "a")), .str (bytes "bb"), .chr 99]
      (by decide) (by decide)).1⟩

/-! ## `get_token` and `split_string` -/

theorem dropWhile_nil_or_head (q : Nat → Bool) (t : List Nat) :
    t.dropWhile q = [] ∨ ∃ d r, t.dropWhile q = d :: r ∧ q d = false := by
  induction t with
  | nil => left; rfl
  | cons x xs ih =>
    by_cases hx : q x = true
    · simpa [List.dropWhile_cons, hx] using ih
    · right
      have hf : q x = false := by simpa using hx
      exact ⟨x, xs, by simp [List.dropWhile_cons, hf], hf⟩

theorem get_token_fst (source delimiters : List Nat) :
    (get_token source delimiters).1 =
      (source.dropWhile (fun c => delimiters.contains c)).takeWhile
        (fun c => !delimiters.contains c) := rfl

theorem get_token_snd (source delimiters : List Nat) :
    (get_token source delimiters).2 =
      (source.dropWhile (fun c => delimiters.contains c)).dropWhile
        (fun c => !delimiters.contains c) := rfl

theorem get_token_decompose (source delimiters : List Nat) :
    source = source.takeWhile (fun c => delimiters.contains c) ++
      (get_token source delimiters).1 ++ (get_token source delimiters).2 := by
  rw [get_token_fst, get_token_snd, List.append_assoc, List.takeWhile_append_dropWhile,
    List.takeWhile_append_dropWhile]

theorem takeWhile_not_ne_nil (q : Nat → Bool) {d : Nat} (r : List Nat) (hd : q d = false) :
    (d :: r).takeWhile (fun c => !q c) ≠ [] := by
  rw [List.takeWhile_cons]
  simp only [hd, Bool.not_false, if_true]
  exact List.cons_ne_nil _ _

theorem get_token_fst_eq_nil {source delimiters : List Nat}
    (h : (get_token source delimiters).1 = []) :
    source.dropWhile (fun c => delimiters.contains c) = [] := by
  rcases dropWhile_nil_or_head (fun c => delimiters.contains c) source with e | ⟨d, r, e, hd⟩
  · exact e
  · rw [get_token_fst, e] at h
    exact absurd h (takeWhile_not_ne_nil (fun c => delimiters.contains c) r hd)

theorem get_token_snd_lt {source delimiters : List Nat}
    (h : (get_token source delimiters).1 ≠ []) :
    (get_token source delimiters).2.length < source.length := by
  have e := congrArg List.length (get_token_decompose source delimiters)
  simp only [List.length_append] at e
  have := List.length_pos.mpr h
  omega

theorem splitOnP_free (q : Nat → Bool) :
    ∀ (l run : List Nat), run ∈ l.splitOnP q → ∀ c ∈ run, q c = false := by
  intro l
  induction l with
  | nil =>
    intro run hrun c hc
    simp at hrun
    subst hrun
    simp at hc
  | cons x xs ih =>
    intro run hrun c hc
    rw [List.splitOnP_cons] at hrun
    by_cases hx : q x = true
    · rw [if_pos hx] at hrun
      simp only [List.mem_cons] at hrun
      rcases hrun with rfl | hrun
      · simp at hc
      · exact ih run hrun c hc
    · have hf : q x = false := by simpa using hx
      rw [if_neg hx] at hrun
      cases hsp : List.splitOnP q xs with
      | nil => rw [hsp] at hrun; simp at hrun
      | cons first others =>
        rw [hsp] at hrun ih
        simp only [List.modifyHead_cons, List.mem_cons] at hrun
        rcases hrun with rfl | hrun
        · simp only [List.mem_cons] at hc
          rcases hc with rfl | hc
          · exact hf
          · exact ih first (by simp) c hc
        · exact ih run (by simp [hrun]) c hc

theorem nonEmptyRuns_nil (q : Nat → Bool) :
    (([] : List Nat).splitOnP q).filter (fun run => !run.isEmpty) = [] := rfl

theorem nonEmptyRuns_cons_true (q : Nat → Bool) {d : Nat} (hd : q d = true) (r : List Nat) :
    ((d :: r).splitOnP q).filter (fun run => !run.isEmpty) =
      (r.splitOnP q).filter (fun run => !run.isEmpty) := by
  rw [List.splitOnP_cons, if_pos hd]
  rfl

theorem nonEmptyRuns_dropWhile (q : Nat → Bool) (source : List Nat) :
    (source.splitOnP q).filter (fun run => !run.isEmpty) =
      ((source.dropWhile q).splitOnP q).filter (fun run => !run.isEmpty) := by
  induction source with
  | nil => rfl
  | cons x xs ih =>
    by_cases hx : q x = true
    · rw [nonEmptyRuns_cons_true q hx, ih, List.dropWhile_cons, if_pos hx]
    · rw [List.dropWhile_cons, if_neg hx]

theorem filter_cons_nonEmpty {token : List Nat} (h : token ≠ []) (l : List (List Nat)) :
    (token :: l).filter (fun run => !run.isEmpty) =
      token :: l.filter (fun run => !run.isEmpty) := by
  cases token with
  | nil => exact absurd rfl h
  | cons a as => rfl

theorem nonEmptyRuns_token (q : Nat → Bool) (t : List Nat)
    (h : t.takeWhile (fun c => !q c) ≠ []) :
    (t.splitOnP q).filter (fun run => !run.isEmpty) =
      t.takeWhile (fun c => !q c) ::
        ((t.dropWhile (fun c => !q c)).splitOnP q).filter (fun run => !run.isEmpty) := by
  have hfree : ∀ c ∈ t.takeWhile (fun c => !q c), ¬ (q c = true) := by
    intro c hc
    have := List.mem_takeWhile_imp hc
    simpa using this
  have hsplit := List.takeWhile_append_dropWhile (fun c => !q c) t
  rcases dropWhile_nil_or_head (fun c => !q c) t with e | ⟨d, r, e, hd⟩
  · rw [e] at hsplit ⊢
    rw [List.append_nil] at hsplit
    rw [nonEmptyRuns_nil]
    conv_lhs => rw [← hsplit]
    rw [List.splitOnP_eq_single q _ hfree]
    exact filter_cons_nonEmpty h []
  · have hd2 : q d = true := by simpa using hd
    rw [e] at hsplit ⊢
    rw [nonEmptyRuns_cons_true q hd2]
    conv_lhs => rw [← hsplit]
    rw [List.splitOnP_first q _ hfree d hd2 r]
    exact filter_cons_nonEmpty h _

theorem delimiterFreeRuns_get_token (source delimiters : List Nat) :
    ((get_token source delimiters).1 = [] → delimiterFreeRuns source delimiters = []) ∧
    ((get_token source delimiters).1 ≠ [] →
      delimiterFreeRuns source delimiters =
        (get_token source delimiters).1 ::
          delimiterFreeRuns (get_token source delimiters).2 delimiters) := by
  constructor
  · intro h
    unfold delimiterFreeRuns
    rw [nonEmptyRuns_dropWhile, get_token_fst_eq_nil h]
    rfl
  · intro h
    unfold delimiterFreeRuns
    rw [nonEmptyRuns_dropWhile]
    exact nonEmptyRuns_token (fun c => delimiters.contains c) _ h

theorem split_string_loop_eq (delimiters : List Nat) :
    ∀ (steps : Nat) (source : List Nat) (outFragments : List (List Nat)),
      source.length < steps →
      split_string_loop delimiters steps (get_token source delimiters) outFragments =
        some (outFragments ++ delimiterFreeRuns source delimiters) := by
  intro steps
  induction steps with
  | zero => intro source _ h; exact absurd h (Nat.not_lt_zero _)
  | succ steps ih =>
    intro source outFragments hlen
    obtain ⟨hnil, hcons⟩ := delimiterFreeRuns_get_token source delimiters
    have hlt := @get_token_snd_lt source delimiters
    rcases hg : get_token source delimiters with ⟨token, remainder⟩
    rw [hg] at hnil hcons hlt
    simp only at hnil hcons hlt
    by_cases ht : token = []
    · simp only [split_string_loop, ht, if_true]
      rw [hnil ht, List.append_nil]
    · simp only [split_string_loop, ht, if_false]
      rw [ih remainder _ (by have := hlt ht; omega), hcons ht]
      simp

theorem contains_eq_true_iff (delimiters : List Nat) (c : Nat) :
    delimiters.contains c = true ↔ c ∈ delimiters := by
  simp

theorem dropWhile_delimiters_eq_nil {source delimiters : List Nat}
    (h : ∀ c ∈ source, c ∈ delimiters) :
    source.dropWhile (fun c => delimiters.contains c) = [] := by
  rw [List.dropWhile_eq_nil_iff]
  intro c hc
  exact (contains_eq_true_iff delimiters c).mpr (h c hc)

/-- C12: `get_token(source, delimiters)` returns `(token, remainder)` with
`source = p ++ token ++ remainder`, where `p` consists of delimiter characters only, `token`
holds no delimiter character, and `remainder` is empty or starts with a delimiter character
(and is empty when `token` is); on a source that is empty or all delimiters the result is
`("", "")`; `get_token("  ab  cd", " ")` is `("ab", "  cd")`. -/
theorem get_token_spec (source delimiters : List Nat) :
    (∃ p, source = p ++ (get_token source delimiters).1 ++ (get_token source delimiters).2 ∧
      ∀ c ∈ p, c ∈ delimiters) ∧
    (∀ c ∈ (get_token source delimiters).1, c ∉ delimiters) ∧
    ((get_token source delimiters).2 = [] ∨
      ∃ d r, (get_token source delimiters).2 = d :: r ∧ d ∈ delimiters) ∧
    ((get_token source delimiters).1 = [] → (get_token source delimiters).2 = []) ∧
    ((∀ c ∈ source, c ∈ delimiters) → get_token source delimiters = ([], [])) ∧
    get_token [] delimiters = ([], []) ∧
    get_token (bytes "   ") (bytes " ") = ([], []) ∧
    get_token (bytes "  ab  cd") (bytes " ") = (bytes "ab", bytes "  cd") := by
  refine ⟨⟨_, get_token_decompose source delimiters, ?_⟩, ?_, ?_, ?_, ?_, rfl, by decide,
    by decide⟩
  · intro c hc
    exact (contains_eq_true_iff delimiters c).mp (List.mem_takeWhile_imp hc)
  · intro c hc hmem
    rw [get_token_fst] at hc
    have h1 := List.mem_takeWhile_imp hc
    have h2 := (contains_eq_true_iff delimiters c).mpr hmem
    simp only [h2, Bool.not_true] at h1
    exact absurd h1 (by decide)
  · rw [get_token_snd]
    rcases dropWhile_nil_or_head (fun c => !delimiters.contains c)
      (source.dropWhile (fun c => delimiters.contains c)) with e | ⟨d, r, e, hd⟩
    · left; exact e
    · right
      refine ⟨d, r, e, (contains_eq_true_iff delimiters d).mp ?_⟩
      simpa using hd
  · intro h
    rw [get_token_snd, get_token_fst_eq_nil h]
    rfl
  · intro h
    have e := dropWhile_delimiters_eq_nil h
    have e1 : (get_token source delimiters).1 = [] := by rw [get_token_fst, e]; rfl
    have e2 : (get_token source delimiters).2 = [] := by rw [get_token_snd, e]; rfl
    exact Prod.ext e1 e2

/-- C13: `split_string(source, outFragments, delimiters)` returns with the previous content
of `outFragments` followed, in order, by exactly the maximal non-empty delimiter-free runs of
`source`; no appended fragment is empty or holds a delimiter character; an empty or
all-delimiter source appends nothing; `split_string("a,,b", out, ",")` appends
`["a", "b"]`. -/
theorem split_string_spec (source : List Nat) (outFragments : List (List Nat))
    (delimiters : List Nat) :
    split_string source outFragments delimiters =
      some (outFragments ++ delimiterFreeRuns source delimiters) ∧
    (∀ f ∈ delimiterFreeRuns source delimiters, f ≠ [] ∧ ∀ c ∈ f, c ∉ delimiters) ∧
    ((∀ c ∈ source, c ∈ delimiters) →
      split_string source outFragments delimiters = some outFragments) ∧
    split_string (bytes "a,,b") outFragments (bytes ",") =
      some (outFragments ++ [bytes "a", bytes "b"]) := by
  have main : ∀ src dl : List Nat, split_string src outFragments dl =
      some (outFragments ++ delimiterFreeRuns src dl) := fun src dl =>
    split_string_loop_eq dl (src.length + 1) src outFragments (Nat.lt_succ_self _)
  refine ⟨main source delimiters, ?_, ?_, ?_⟩
  · intro f hf
    unfold delimiterFreeRuns at hf
    rw [List.mem_filter] at hf
    obtain ⟨hmem, hne⟩ := hf
    constructor
    · intro hnil
      rw [hnil] at hne
      exact absurd hne (by decide)
    · intro c hc hd
      have hfalse : delimiters.contains c = false :=
        splitOnP_free (fun c => delimiters.contains c) source f hmem c hc
      rw [(contains_eq_true_iff delimiters c).mpr hd] at hfalse
      exact absurd hfalse (by decide)
  · intro h
    rw [main]
    unfold delimiterFreeRuns
    rw [nonEmptyRuns_dropWhile, dropWhile_delimiters_eq_nil h, nonEmptyRuns_nil,
      List.append_nil]
  · rw [main]
    have : delimiterFreeRuns (bytes "a,,b") (bytes ",") = [bytes "a", bytes "b"] := by decide
    rw [this]

end polar.utils
